import Mathlib

/-!
Verification of the consensus processor (`consensus_processor.py`).

The source is shallowly embedded: character positions are `Int` (Python ints),
Python dicts become Lean functions into `Option` together with a `Finset` of
inserted keys where iteration or size matters, Python sets of positions become
`Finset Int`, and the `assert` statements become an `Err` value threaded
through explicit state passing (the returned state reflects all mutations
performed before the failing assertion, exactly as in the source).

Identifiers (article sha256, filename, contributor uuid, topic name,
namespace, task uuid) are opaque tokens compared only for equality; they are
represented as `Nat`.  `target_text` is represented as the decoded character
sequence (`List Char`): the escape codec is external to the core and is
required to round-trip exactly, so `decode`/`encode` are the identity on this
representation.
-/

/-- Default for `minimum_redundancy` (`MIN_REDUNDANCY` in the source). -/
def MIN_REDUNDANCY : Nat := 3

/-- Default for `pass_threshold` (`PASS_THRESHOLD` in the source). -/
def PASS_THRESHOLD : Nat := 2

/-- The `iaa_config` dictionary: the two recognized options, each possibly
absent (in which case the module-level default applies). -/
structure Config where
  minimum_redundancy : Option Nat
  pass_threshold : Option Nat
deriving DecidableEq

/-- `iaa_config.get('minimum_redundancy', MIN_REDUNDANCY)`. -/
def Config.minRedundancy (c : Config) : Nat :=
  c.minimum_redundancy.getD MIN_REDUNDANCY

/-- `iaa_config.get('pass_threshold', PASS_THRESHOLD)`. -/
def Config.passThreshold (c : Config) : Nat :=
  c.pass_threshold.getD PASS_THRESHOLD

/-- The distinct `assert` failures (each raises in the source; the
`DataIntegrityError` of the spec corresponds to the first three). -/
inductive Err where
  | charMismatch
  | identityMismatch
  | topicMismatch
deriving DecidableEq

/-- One annotation record (`anno` in the source), with `target_text` already
decoded. -/
structure Anno where
  start_pos : Int
  end_pos : Int
  target_text : List Char
  article_sha256 : Nat
  article_filename : Nat
  contributor_uuid : Nat
  topic_name : Nat
  nspace : Nat
  case_number : Int
  taskrun_count : Nat
deriving DecidableEq

/-- Number of positions actually paired with a character by
`zip(range(start_pos, end_pos), target_text)`: `zip` stops at the shorter
sequence. -/
def annoLen (a : Anno) : Nat :=
  min (a.end_pos - a.start_pos).toNat a.target_text.length

/-- The dict `anno_map = dict(zip(anno_range, target_text))` as a function:
position `start_pos + i` maps to the `i`-th character of the decoded text,
for `i < annoLen`. -/
def annoMap (a : Anno) (p : Int) : Option Char :=
  if a.start_pos ≤ p ∧ p < a.start_pos + (annoLen a : Int) then
    a.target_text[(p - a.start_pos).toNat]?
  else none

/-- The keys of `anno_map`, as a list (used to iterate the finitely many
positions an annotation assigns a character to). -/
def annoIdxList (a : Anno) : List Int :=
  (List.range (annoLen a)).map (fun i : Nat => a.start_pos + (i : Int))

/-- `set(range(int(anno['start_pos']), int(anno['end_pos'])))`: the full
half-open position range of the annotation (independent of text length). -/
def annoSet (a : Anno) : Finset Int :=
  Finset.Ico a.start_pos a.end_pos

/-- `ArticleData`: article identity plus the position-to-character map
(`char_dict`).  `None` identities model the pristine state. -/
structure ArticleData where
  article_sha256 : Option Nat
  article_filename : Option Nat
  char_dict : Int → Option Char

/-- The freshly constructed `ArticleData()`. -/
def emptyArticleData : ArticleData :=
  { article_sha256 := none, article_filename := none, char_dict := fun _ => none }

/-- `self.char_dict.update(anno_map)`: the annotation's entries override /
extend the existing map. -/
def mergedCharDict (ad : ArticleData) (a : Anno) : Int → Option Char :=
  fun p =>
    match annoMap a p with
    | some c => some c
    | none => ad.char_dict p

/-- The `belt & suspenders` overlap check: true when some already-known
position is assigned a different character by this annotation (the loop over
`char_dict.viewkeys() & anno_map.viewkeys()` finds a failing `assert`). -/
def charConflict (ad : ArticleData) (a : Anno) : Bool :=
  (annoIdxList a).any fun p =>
    match ad.char_dict p, annoMap a p with
    | some c, some c' => decide (c ≠ c')
    | _, _ => false

/-- `ArticleData.consider`.  Returns the state as mutated up to the first
failing assertion together with the failure, if any: the char-equality
asserts run before `char_dict.update`, the identity asserts after it. -/
def ArticleData.consider (ad : ArticleData) (a : Anno) : ArticleData × Option Err :=
  if charConflict ad a then (ad, some Err.charMismatch)
  else
    let ad1 : ArticleData := { ad with char_dict := mergedCharDict ad a }
    match ad.article_sha256 with
    | none =>
      ({ ad1 with article_sha256 := some a.article_sha256,
                  article_filename := some a.article_filename }, none)
    | some s =>
      if s = a.article_sha256 ∧ ad.article_filename = some a.article_filename then
        (ad1, none)
      else (ad1, some Err.identityMismatch)

/-- `ArticleData.get`: dictionary lookup; `none` models the `KeyError`. -/
def ArticleData.get (ad : ArticleData) (char_index : Int) : Option Char :=
  ad.char_dict char_index

/-- `ContribData`: one contributor's flattened position set for one topic and
the minimum case number the contributor proposed at each position. -/
structure ContribData where
  flattened : Finset Int
  case_number_dict : Int → Option Int

/-- The freshly constructed `ContribData()` (the `defaultdict` default). -/
def emptyContribData : ContribData :=
  { flattened := ∅, case_number_dict := fun _ => none }

/-- `ContribData.consider`: union the annotation's range into `flattened`;
positions newly seen get the proposed case number, positions already tracked
keep the minimum of old and proposed. -/
def ContribData.consider (cd : ContribData) (a : Anno) : ContribData :=
  { flattened := cd.flattened ∪ annoSet a,
    case_number_dict := fun p =>
      if p ∈ annoSet a then
        match cd.case_number_dict p with
        | none => some a.case_number
        | some old => some (min old a.case_number)
      else cd.case_number_dict p }

/-- `TopicData`: topic identity (unset in the fresh state) and the
per-contributor table `contrib_dict`, modelled as the set of inserted keys
plus a total function defaulting to the fresh `ContribData`. -/
structure TopicData where
  topic_name : Option Nat
  nspace : Option Nat
  contrib_keys : Finset Nat
  contribs : Nat → ContribData

/-- The freshly constructed `TopicData()` (the `defaultdict` default). -/
def emptyTopicData : TopicData :=
  { topic_name := none, nspace := none, contrib_keys := ∅,
    contribs := fun _ => emptyContribData }

/-- `TopicData.consider`: get-or-create the contributor's `ContribData` and
delegate (the `defaultdict` inserts the key even if the identity assert then
fails), then set or validate `topic_name`/`namespace`. -/
def TopicData.consider (td : TopicData) (a : Anno) : TopicData × Option Err :=
  let td1 : TopicData :=
    { td with
      contrib_keys := insert a.contributor_uuid td.contrib_keys,
      contribs := Function.update td.contribs a.contributor_uuid
        ((td.contribs a.contributor_uuid).consider a) }
  match td.topic_name with
  | none => ({ td1 with topic_name := some a.topic_name, nspace := some a.nspace }, none)
  | some n =>
    if n = a.topic_name ∧ td.nspace = some a.nspace then (td1, none)
    else (td1, some Err.topicMismatch)

/-- `TopicData.sum_contribs` as a function: the multiset sum of the
contributors' flattened sets, i.e. the per-position count of contributors
covering that position. -/
def TopicData.sum_contribs (td : TopicData) (p : Int) : Nat :=
  Finset.sum td.contrib_keys fun u => if p ∈ (td.contribs u).flattened then 1 else 0

/-- The key set of the `Counter` returned by `sum_contribs` (every position
some contributor covers). -/
def TopicData.support (td : TopicData) : Finset Int :=
  td.contrib_keys.biUnion fun u => (td.contribs u).flattened

/-- A `{start_pos, end_pos}` offset dict. -/
structure Offset where
  start_pos : Int
  end_pos : Int
deriving DecidableEq

/-- The loop body of `convert_to_ranges` on the sorted index list:
`start` is the pending range start, `prev` the last index consumed; a gap
(`prev + 1 != pos`) emits the pending range and starts a new one. -/
def rangesGo : Int → Int → List Int → List Offset
  | start, prev, [] => [⟨start, prev + 1⟩]
  | start, prev, pos :: rest =>
    if prev + 1 ≠ pos then ⟨start, prev + 1⟩ :: rangesGo pos pos rest
    else rangesGo start pos rest

/-- `TopicData.convert_to_ranges`: sort the positions and walk them in
ascending order, emitting each maximal contiguous run as a half-open range;
empty input yields no ranges. -/
def convert_to_ranges (positions : List Int) : List Offset :=
  match List.insertionSort (· ≤ ·) positions with
  | [] => []
  | x :: xs => rangesGo x x xs

/-- `TopicData.get_consensus`: compute the counter, keep the positions where
the injected predicate holds of `(position, count)`, convert to ranges.  The
filtered key set is iterated in sorted order (a canonical dict order;
`convert_to_ranges` re-sorts anyway and is iteration-order independent). -/
def TopicData.get_consensus (td : TopicData) (determine_passing : Int → Nat → Bool) :
    List Offset :=
  convert_to_ranges
    (Finset.sort (· ≤ ·)
      (td.support.filter fun p => determine_passing p (td.sum_contribs p) = true))

/-- `TopicData.get_contrib_count`: `len(self.contrib_dict)`. -/
def TopicData.get_contrib_count (td : TopicData) : Nat :=
  td.contrib_keys.card

/-- The set of positions passing the threshold predicate
`total >= pass_threshold` that `ConsensusProcessor` injects. -/
def TopicData.passingPositions (td : TopicData) (pass_threshold : Nat) : Finset Int :=
  td.support.filter fun p => pass_threshold ≤ td.sum_contribs p

/-- An offset after `set_text`: the dict has gained `target_text`. -/
structure TRow where
  start_pos : Int
  end_pos : Int
  target_text : List Char
deriving DecidableEq

/-- A row after `determine_cases`: topic identity and case number added. -/
structure CRow where
  start_pos : Int
  end_pos : Int
  target_text : List Char
  topic_name : Option Nat
  nspace : Option Nat
  case_number : Nat
deriving DecidableEq

/-- A finished output row, after `set_links` (and, in answer mode, the
`extra` dict; `none` models the key being absent). -/
structure Row where
  start_pos : Int
  end_pos : Int
  target_text : List Char
  topic_name : Option Nat
  nspace : Option Nat
  case_number : Nat
  article_sha256 : Option Nat
  article_filename : Option Nat
  task_uuid : Nat
  extra : Option Nat
deriving DecidableEq

/-- The list of positions of an offset, ascending (`range(start, end)`). -/
def offsetList (o : Offset) : List Int :=
  (List.range (o.end_pos - o.start_pos).toNat).map fun i : Nat => o.start_pos + (i : Int)

/-- The list comprehension `[self.article_data.get(x) for x in ...]`: `none`
as soon as any position misses (`KeyError`). -/
def getChars (ad : ArticleData) : List Int → Option (List Char)
  | [] => some []
  | i :: rest =>
    match ad.get i with
    | none => none
    | some c =>
      match getChars ad rest with
      | none => none
      | some cs => some (c :: cs)

/-- `set_text` for one offset: reconstruct the text over its range. -/
def setTextOne (ad : ArticleData) (o : Offset) : Option (List Char) :=
  getChars ad (offsetList o)

/-- `ConsensusProcessor.set_text` over an offset list. -/
def setText (ad : ArticleData) : List Offset → Option (List TRow)
  | [] => some []
  | o :: rest =>
    match setTextOne ad o with
    | none => none
    | some cs =>
      match setText ad rest with
      | none => none
      | some trs => some (⟨o.start_pos, o.end_pos, cs⟩ :: trs)

/-- The `enumerate` loop of `determine_cases`: `seq` is the running index. -/
def casesFrom (tn ns : Option Nat) : Nat → List TRow → List CRow
  | _, [] => []
  | seq, tr :: rest =>
    ⟨tr.start_pos, tr.end_pos, tr.target_text, tn, ns, seq + 1⟩ ::
      casesFrom tn ns (seq + 1) rest

/-- `TopicData.determine_cases`: copy each offset row, stamp topic identity,
assign `case_number = seq + 1` in list order. -/
def TopicData.determine_cases (td : TopicData) (trs : List TRow) : List CRow :=
  casesFrom td.topic_name td.nspace 0 trs

/-- `ConsensusProcessor` state: task id, config, the one `ArticleData`, and
the `topics` defaultdict (inserted keys plus total function). -/
structure ProcState where
  task_uuid : Nat
  iaa_config : Config
  article_data : ArticleData
  topic_keys : Finset Nat
  topics : Nat → TopicData

/-- `ConsensusProcessor.__init__`. -/
def initState (task_uuid : Nat) (cfg : Config) : ProcState :=
  { task_uuid := task_uuid, iaa_config := cfg, article_data := emptyArticleData,
    topic_keys := ∅, topics := fun _ => emptyTopicData }

/-- One iteration of the loop in `ConsensusProcessor.consider`: skip the
annotation when `taskrun_count < minimum_redundancy`; otherwise feed the
article data (aborting on its assertion failures) and then the topic's
`TopicData` (the `defaultdict` inserts the topic key regardless of the
subsequent identity assert). -/
def stepOne (S : ProcState) (a : Anno) : ProcState × Option Err :=
  if a.taskrun_count < S.iaa_config.minRedundancy then (S, none)
  else
    match S.article_data.consider a with
    | (ad', some e) => ({ S with article_data := ad' }, some e)
    | (ad', none) =>
      match (S.topics a.topic_name).consider a with
      | (td', e2) =>
        ({ S with article_data := ad',
                  topic_keys := insert a.topic_name S.topic_keys,
                  topics := Function.update S.topics a.topic_name td' }, e2)

/-- `ConsensusProcessor.consider` over a batch: fold `stepOne`, stopping at
the first assertion failure (the raised exception aborts the loop). -/
def considerBatch : ProcState → List Anno → ProcState × Option Err
  | S, [] => (S, none)
  | S, a :: rest =>
    match stepOne S a with
    | (S', none) => considerBatch S' rest
    | (S', some e) => (S', some e)

/-- The topic keys in the canonical iteration order used for extraction. -/
def sortedTopicKeys (S : ProcState) : List Nat :=
  Finset.sort (· ≤ ·) S.topic_keys

/-- `set_links` plus row assembly for one `CRow` (article identity columns,
`task_uuid`; `extra` as given). -/
def linkRow (S : ProcState) (extra : Option Nat) (r : CRow) : Row :=
  { start_pos := r.start_pos, end_pos := r.end_pos, target_text := r.target_text,
    topic_name := r.topic_name, nspace := r.nspace, case_number := r.case_number,
    article_sha256 := S.article_data.article_sha256,
    article_filename := S.article_data.article_filename,
    task_uuid := S.task_uuid, extra := extra }

/-- The per-topic body of the loop in `ConsensusProcessor.get_consensus`:
threshold predicate, `TopicData.get_consensus`, `set_text` (failing on a
`KeyError`), `determine_cases`, `set_links`. -/
def topicPlainRows (S : ProcState) (t : Nat) : Option (List Row) :=
  let td := S.topics t
  let offsets := td.get_consensus fun _ total =>
    decide (S.iaa_config.passThreshold ≤ total)
  match setText S.article_data offsets with
  | none => none
  | some trs => some ((td.determine_cases trs).map (linkRow S none))

/-- The per-topic body of the loop in `ConsensusProcessor.get_answer_consensus`:
as `topicPlainRows`, but with the no-highlight fallback offset and the
`extra.contrib_count` field on every row. -/
def topicAnswerRows (S : ProcState) (t : Nat) : Option (List Row) :=
  let td := S.topics t
  let offsets := td.get_consensus fun _ total =>
    decide (S.iaa_config.passThreshold ≤ total)
  let contrib_count := td.get_contrib_count
  let offsets' :=
    if offsets = [] ∧ S.iaa_config.passThreshold ≤ contrib_count then
      [({ start_pos := 0, end_pos := 0 } : Offset)]
    else offsets
  match setText S.article_data offsets' with
  | none => none
  | some trs => some ((td.determine_cases trs).map (linkRow S (some contrib_count)))

/-- Concatenation of the per-topic row lists, aborting at the first failing
topic (the raised `KeyError` aborts the loop in the source). -/
def collectRows (f : Nat → Option (List Row)) : List Nat → Option (List Row)
  | [] => some []
  | t :: rest =>
    match f t with
    | none => none
    | some rows =>
      match collectRows f rest with
      | none => none
      | some more => some (rows ++ more)

/-- `ConsensusProcessor.get_consensus`. -/
def getConsensus (S : ProcState) : Option (List Row) :=
  collectRows (topicPlainRows S) (sortedTopicKeys S)

/-- `ConsensusProcessor.get_answer_consensus`. -/
def getAnswerConsensus (S : ProcState) : Option (List Row) :=
  collectRows (topicAnswerRows S) (sortedTopicKeys S)

/-- Executable pairwise character compatibility: wherever both annotations
assign a character, they assign the same one. -/
def charCompat (a b : Anno) : Bool :=
  (annoIdxList a).all fun p =>
    match annoMap a p, annoMap b p with
    | some c, some c' => decide (c = c')
    | _, _ => true

/-- Two annotations are consistent: same article identity, equal namespaces
when on the same topic, and character-compatible. -/
def annoConsistent (a b : Anno) : Prop :=
  a.article_sha256 = b.article_sha256 ∧
  a.article_filename = b.article_filename ∧
  (a.topic_name = b.topic_name → a.nspace = b.nspace) ∧
  charCompat a b = true

instance : DecidablePred fun ab : Anno × Anno => annoConsistent ab.1 ab.2 := by
  intro ab
  unfold annoConsistent
  infer_instance

instance (a b : Anno) : Decidable (annoConsistent a b) := by
  unfold annoConsistent
  infer_instance

/-- A batch is consistent when all its annotations are pairwise consistent. -/
def batchConsistent (L : List Anno) : Prop :=
  ∀ a ∈ L, ∀ b ∈ L, annoConsistent a b

instance (L : List Anno) : Decidable (batchConsistent L) := by
  unfold batchConsistent
  infer_instance

/-- Compatibility of an `ArticleData` state with an annotation: no recorded
character disagrees with it and the recorded identity (if any) matches. -/
def ArticleCompat (ad : ArticleData) (a : Anno) : Prop :=
  (∀ p c c', ad.char_dict p = some c → annoMap a p = some c' → c = c') ∧
  (ad.article_sha256 = none ∨
    (ad.article_sha256 = some a.article_sha256 ∧
     ad.article_filename = some a.article_filename))

/-- Compatibility of a `TopicData` state with an annotation: topic identity
unset or matching. -/
def TopicCompat (td : TopicData) (a : Anno) : Prop :=
  td.topic_name = none ∨
    (td.topic_name = some a.topic_name ∧ td.nspace = some a.nspace)

/-- Compatibility of a processor state with an annotation. -/
def StateCompat (S : ProcState) (a : Anno) : Prop :=
  ArticleCompat S.article_data a ∧ TopicCompat (S.topics a.topic_name) a

/-- Compatibility of a state with a whole (pairwise consistent) batch. -/
def BatchCompat (S : ProcState) (L : List Anno) : Prop :=
  batchConsistent L ∧ ∀ a ∈ L, StateCompat S a

/-- A configuration with both options absent (defaults apply). -/
def defaultConfig : Config := { minimum_redundancy := none, pass_threshold := none }

/-- Sample annotation: contributor 1 highlights positions `[0,4)`. -/
def annoA : Anno :=
  { start_pos := 0, end_pos := 4, target_text := "abcd".toList,
    article_sha256 := 7, article_filename := 8, contributor_uuid := 1,
    topic_name := 5, nspace := 6, case_number := 1, taskrun_count := 3 }

/-- Sample annotation: contributor 2 highlights positions `[2,6)`,
character-consistent with `annoA` on the overlap. -/
def annoB : Anno :=
  { start_pos := 2, end_pos := 6, target_text := "cdef".toList,
    article_sha256 := 7, article_filename := 8, contributor_uuid := 2,
    topic_name := 5, nspace := 6, case_number := 2, taskrun_count := 3 }

/-- Sample annotation: `[0,6)`, the union of `annoA`'s and `annoB`'s ranges. -/
def annoU : Anno :=
  { start_pos := 0, end_pos := 6, target_text := "abcdef".toList,
    article_sha256 := 7, article_filename := 8, contributor_uuid := 1,
    topic_name := 5, nspace := 6, case_number := 1, taskrun_count := 3 }

/-- Sample annotation whose decoded text (2 chars) is shorter than its
half-open range `[0,4)`. -/
def annoShort : Anno :=
  { start_pos := 0, end_pos := 4, target_text := "ab".toList,
    article_sha256 := 7, article_filename := 8, contributor_uuid := 1,
    topic_name := 5, nspace := 6, case_number := 1, taskrun_count := 3 }

/-- Sample annotation with too few task runs for the default redundancy. -/
def annoLow : Anno :=
  { start_pos := 0, end_pos := 4, target_text := "abcd".toList,
    article_sha256 := 7, article_filename := 8, contributor_uuid := 1,
    topic_name := 5, nspace := 6, case_number := 1, taskrun_count := 2 }

/-- Sample article state whose recorded identity differs from `annoA`'s. -/
def mismatchArticle : ArticleData :=
  { article_sha256 := some 1, article_filename := some 8, char_dict := fun _ => none }

/-- Sample topic state: contributors 1 and 2 with `annoA`'s and `annoB`'s
flattened ranges. -/
def sampleTopic : TopicData :=
  { topic_name := some 5, nspace := some 6, contrib_keys := {1, 2},
    contribs := fun u =>
      if u = 1 then { flattened := annoSet annoA, case_number_dict := fun _ => none }
      else if u = 2 then { flattened := annoSet annoB, case_number_dict := fun _ => none }
      else emptyContribData }

/-- Sample topic state with the same identity as `sampleTopic` but different
contributor data. -/
def sampleTopicOther : TopicData :=
  { topic_name := some 5, nspace := some 6, contrib_keys := {3},
    contribs := fun u =>
      if u = 3 then { flattened := annoSet annoU, case_number_dict := fun _ => none }
      else emptyContribData }

attribute [ext] ArticleData ContribData TopicData ProcState

/-- The article state after a successful `ArticleData.consider a`. -/
def stepArticle (ad : ArticleData) (a : Anno) : ArticleData :=
  { article_sha256 := some a.article_sha256,
    article_filename := some a.article_filename,
    char_dict := mergedCharDict ad a }

/-- The topic state after a successful `TopicData.consider a`. -/
def stepTopic (td : TopicData) (a : Anno) : TopicData :=
  { topic_name := some a.topic_name, nspace := some a.nspace,
    contrib_keys := insert a.contributor_uuid td.contrib_keys,
    contribs := Function.update td.contribs a.contributor_uuid
      ((td.contribs a.contributor_uuid).consider a) }

/-- The processor state after a successful, non-skipped `stepOne`. -/
def steppedState (S : ProcState) (a : Anno) : ProcState :=
  { S with
    article_data := stepArticle S.article_data a,
    topic_keys := insert a.topic_name S.topic_keys,
    topics := Function.update S.topics a.topic_name
      (stepTopic (S.topics a.topic_name) a) }

lemma mem_annoIdxList {a : Anno} {p : Int} :
    p ∈ annoIdxList a ↔ a.start_pos ≤ p ∧ p < a.start_pos + (annoLen a : Int) := by
  unfold annoIdxList
  simp only [List.mem_map, List.mem_range]
  constructor
  · rintro ⟨i, hi, rfl⟩
    omega
  · rintro ⟨h1, h2⟩
    exact ⟨(p - a.start_pos).toNat, by omega, by omega⟩

lemma annoMap_isSome {a : Anno} {p : Int} :
    (annoMap a p).isSome = true ↔
      a.start_pos ≤ p ∧ p < a.start_pos + (annoLen a : Int) := by
  unfold annoMap
  split
  · rename_i h
    have hlt : (p - a.start_pos).toNat < a.target_text.length := by
      have : annoLen a ≤ a.target_text.length := Nat.min_le_right _ _
      omega
    simp [List.getElem?_eq_getElem hlt, h]
  · rename_i h
    simpa using h

lemma annoMap_eq_none_of_ge {a : Anno} {p : Int}
    (h : a.start_pos + (annoLen a : Int) ≤ p) : annoMap a p = none := by
  unfold annoMap
  rw [if_neg]
  omega

lemma mem_annoIdxList_of_annoMap_some {a : Anno} {p : Int} {c : Char}
    (h : annoMap a p = some c) : p ∈ annoIdxList a := by
  rw [mem_annoIdxList, ← annoMap_isSome, h]
  rfl

lemma charCompat_spec {a b : Anno} (h : charCompat a b = true) :
    ∀ p c c', annoMap a p = some c → annoMap b p = some c' → c = c' := by
  intro p c c' ha hb
  unfold charCompat at h
  rw [List.all_eq_true] at h
  have := h p (mem_annoIdxList_of_annoMap_some ha)
  rw [ha, hb] at this
  simpa using this

/-- C1: `TopicData.sum_contribs` assigns each position the number of distinct
contributors whose flattened set contains it (so a contributor counts at most
once per position), and a contributor submitting two ranges contributes
exactly the same flattened set as submitting any single annotation covering
their union once. -/
theorem sum_contribs_counts_distinct :
    (∀ (td : TopicData) (p : Int),
      td.sum_contribs p =
        (td.contrib_keys.filter fun u => p ∈ (td.contribs u).flattened).card) ∧
    (∀ (cd : ContribData) (a1 a2 a3 : Anno),
      annoSet a3 = annoSet a1 ∪ annoSet a2 →
      ((cd.consider a1).consider a2).flattened = (cd.consider a3).flattened) := by
  constructor
  · intro td p
    rw [TopicData.sum_contribs, Finset.card_filter]
  · intro cd a1 a2 a3 h
    simp only [ContribData.consider, h, Finset.union_assoc]

theorem sum_contribs_counts_distinct_witness :
    annoSet annoU = annoSet annoA ∪ annoSet annoB ∧
    ((emptyContribData.consider annoA).consider annoB).flattened =
      (emptyContribData.consider annoU).flattened :=
  ⟨by decide,
   sum_contribs_counts_distinct.2 emptyContribData annoA annoB annoU (by decide)⟩

/-- C5: for a fixed topic state, the set of positions whose contributor count
passes threshold `t2` is a subset of those passing `t1` whenever `t1 ≤ t2`:
raising `pass_threshold` never adds passing positions. -/
theorem passing_positions_antitone (td : TopicData) (t1 t2 : Nat) (h : t1 ≤ t2) :
    td.passingPositions t2 ⊆ td.passingPositions t1 := by
  intro p hp
  rw [TopicData.passingPositions, Finset.mem_filter] at hp ⊢
  exact ⟨hp.1, le_trans h hp.2⟩

theorem passing_positions_antitone_witness :
    1 ≤ 2 ∧ sampleTopic.passingPositions 2 ⊆ sampleTopic.passingPositions 1 :=
  ⟨by decide, passing_positions_antitone sampleTopic 1 2 (by decide)⟩

lemma charConflict_eq_true_iff (ad : ArticleData) (a : Anno) :
    charConflict ad a = true ↔
      ∃ p c c', ad.char_dict p = some c ∧ annoMap a p = some c' ∧ c ≠ c' := by
  unfold charConflict
  rw [List.any_eq_true]
  constructor
  · rintro ⟨p, _, hp⟩
    cases hd : ad.char_dict p with
    | none => rw [hd] at hp; simp at hp
    | some c =>
      cases hm : annoMap a p with
      | none => rw [hd, hm] at hp; simp at hp
      | some c' =>
        rw [hd, hm] at hp
        exact ⟨p, c, c', hd, hm, by simpa using hp⟩
  · rintro ⟨p, c, c', hd, hm, hne⟩
    refine ⟨p, mem_annoIdxList_of_annoMap_some hm, ?_⟩
    rw [hd, hm]
    simpa using hne

lemma charConflict_empty (a : Anno) : charConflict emptyArticleData a = false := by
  rw [← Bool.not_eq_true, charConflict_eq_true_iff]
  rintro ⟨p, c, c', hd, -, -⟩
  simp [emptyArticleData] at hd

lemma ArticleData.consider_conflict {ad : ArticleData} {a : Anno}
    (h : charConflict ad a = true) :
    ad.consider a = (ad, some Err.charMismatch) := by
  simp [ArticleData.consider, h]

lemma ArticleData.consider_fresh {ad : ArticleData} {a : Anno}
    (h : charConflict ad a = false) (hs : ad.article_sha256 = none) :
    ad.consider a =
      ({ article_sha256 := some a.article_sha256,
         article_filename := some a.article_filename,
         char_dict := mergedCharDict ad a }, none) := by
  simp [ArticleData.consider, h, hs]

lemma ArticleData.consider_keep {ad : ArticleData} {a : Anno} {s : Nat}
    (h : charConflict ad a = false) (hs : ad.article_sha256 = some s)
    (h1 : s = a.article_sha256) (h2 : ad.article_filename = some a.article_filename) :
    ad.consider a = ({ ad with char_dict := mergedCharDict ad a }, none) := by
  simp [ArticleData.consider, h, hs, h1, h2]

lemma ArticleData.consider_idmismatch {ad : ArticleData} {a : Anno} {s : Nat}
    (h : charConflict ad a = false) (hs : ad.article_sha256 = some s)
    (hid : ¬(s = a.article_sha256 ∧ ad.article_filename = some a.article_filename)) :
    ad.consider a =
      ({ ad with char_dict := mergedCharDict ad a }, some Err.identityMismatch) := by
  simp only [ArticleData.consider, h, Bool.false_eq_true, if_false, hs]
  rw [if_neg hid]

lemma charConflict_of_compat {ad : ArticleData} {a : Anno}
    (h : ∀ p c c', ad.char_dict p = some c → annoMap a p = some c' → c = c') :
    charConflict ad a = false := by
  rw [← Bool.not_eq_true, charConflict_eq_true_iff]
  rintro ⟨p, c, c', hd, hm, hne⟩
  exact hne (h p c c' hd hm)

/-- C8: `ArticleData.consider` fails exactly when the annotation assigns a
different character to an already-known position, or when the recorded
article identity exists and differs from the annotation's; on success the new
positions are merged into `char_dict` and the identity records the
annotation's. -/
theorem articledata_consider_error_iff (ad : ArticleData) (a : Anno) :
    ((ad.consider a).2 ≠ none ↔
      (∃ p c c', ad.char_dict p = some c ∧ annoMap a p = some c' ∧ c ≠ c') ∨
      (ad.article_sha256 ≠ none ∧
        ¬(ad.article_sha256 = some a.article_sha256 ∧
          ad.article_filename = some a.article_filename))) ∧
    ((ad.consider a).2 = none →
      (ad.consider a).1.char_dict = mergedCharDict ad a ∧
      (ad.consider a).1.article_sha256 = some a.article_sha256 ∧
      (ad.consider a).1.article_filename = some a.article_filename) := by
  by_cases hc : charConflict ad a = true
  · rw [ArticleData.consider_conflict hc]
    exact ⟨⟨fun _ => Or.inl ((charConflict_eq_true_iff ad a).1 hc),
            fun _ => by simp⟩,
           fun habs => by simp at habs⟩
  · rw [Bool.not_eq_true] at hc
    have hnoconf : ¬∃ p c c', ad.char_dict p = some c ∧ annoMap a p = some c' ∧ c ≠ c' := by
      rw [← charConflict_eq_true_iff ad a, hc]
      simp
    cases hs : ad.article_sha256 with
    | none =>
      rw [ArticleData.consider_fresh hc hs]
      refine ⟨⟨fun habs => absurd rfl habs, ?_⟩, fun _ => ⟨rfl, rfl, rfl⟩⟩
      rintro (h | ⟨hne, -⟩)
      · exact absurd h hnoconf
      · exact absurd rfl hne
    | some s =>
      by_cases hid : s = a.article_sha256 ∧ ad.article_filename = some a.article_filename
      · rw [ArticleData.consider_keep hc hs hid.1 hid.2]
        refine ⟨⟨fun habs => absurd rfl habs, ?_⟩,
                fun _ => ⟨rfl, by simp [hs, hid.1], hid.2⟩⟩
        rintro (h | ⟨-, h2⟩)
        · exact absurd h hnoconf
        · exact absurd ⟨by rw [hid.1], hid.2⟩ h2
      · rw [ArticleData.consider_idmismatch hc hs hid]
        refine ⟨⟨fun _ => Or.inr ⟨by simp, ?_⟩, fun _ => by simp⟩,
                fun habs => by simp at habs⟩
        rintro ⟨h1, h2⟩
        exact hid ⟨by simpa using h1, h2⟩

theorem articledata_consider_error_iff_witness :
    (emptyArticleData.consider annoA).2 = none ∧
    ((emptyArticleData.consider annoA).1.char_dict = mergedCharDict emptyArticleData annoA ∧
     (emptyArticleData.consider annoA).1.article_sha256 = some annoA.article_sha256 ∧
     (emptyArticleData.consider annoA).1.article_filename = some annoA.article_filename) :=
  ⟨by decide, (articledata_consider_error_iff emptyArticleData annoA).2 (by decide)⟩

/-- C9: when `ArticleData.consider` fails only because of an article-identity
mismatch, `char_dict` has nevertheless already been updated with the
annotation's position-to-character entries before the identity check runs:
the call mutates state even though it reports an error. -/
theorem articledata_consider_not_atomic (ad : ArticleData) (a : Anno)
    (hc : charConflict ad a = false)
    (hs : ad.article_sha256 ≠ none)
    (hm : ¬(ad.article_sha256 = some a.article_sha256 ∧
            ad.article_filename = some a.article_filename)) :
    (ad.consider a).2 = some Err.identityMismatch ∧
    (ad.consider a).1.char_dict = mergedCharDict ad a := by
  cases hsv : ad.article_sha256 with
  | none => exact absurd hsv hs
  | some s =>
    have hid : ¬(s = a.article_sha256 ∧ ad.article_filename = some a.article_filename) := by
      rintro ⟨h1, h2⟩
      exact hm ⟨by rw [hsv, h1], h2⟩
    rw [ArticleData.consider_idmismatch hc hsv hid]
    exact ⟨rfl, rfl⟩

theorem articledata_consider_not_atomic_witness :
    charConflict mismatchArticle annoA = false ∧
    mismatchArticle.article_sha256 ≠ none ∧
    ¬(mismatchArticle.article_sha256 = some annoA.article_sha256 ∧
      mismatchArticle.article_filename = some annoA.article_filename) ∧
    ((mismatchArticle.consider annoA).2 = some Err.identityMismatch ∧
     (mismatchArticle.consider annoA).1.char_dict = mergedCharDict mismatchArticle annoA) :=
  ⟨by decide, by decide, by decide,
   articledata_consider_not_atomic mismatchArticle annoA (by decide) (by decide) (by decide)⟩

lemma mem_offsetList {o : Offset} {p : Int} :
    p ∈ offsetList o ↔ o.start_pos ≤ p ∧ p < o.end_pos := by
  unfold offsetList
  simp only [List.mem_map, List.mem_range]
  constructor
  · rintro ⟨i, hi, rfl⟩
    omega
  · rintro ⟨h1, h2⟩
    exact ⟨(p - o.start_pos).toNat, by omega, by omega⟩

lemma getChars_eq_none (ad : ArticleData) (l : List Int)
    (h : ∃ p ∈ l, ad.char_dict p = none) : getChars ad l = none := by
  induction l with
  | nil =>
    obtain ⟨p, hp, -⟩ := h
    simp at hp
  | cons i rest ih =>
    obtain ⟨p, hp, hnone⟩ := h
    cases hi : ad.get i with
    | none => simp [getChars, hi]
    | some c =>
      have hpi : p ≠ i := by
        intro he
        rw [he] at hnone
        have : ad.get i = none := hnone
        rw [hi] at this
        cases this
      have hrest : getChars ad rest = none := by
        apply ih
        refine ⟨p, ?_, hnone⟩
        rcases List.mem_cons.1 hp with h1 | h1
        · exact absurd h1 hpi
        · exact h1
      simp [getChars, hi, hrest]

/-- C10: `ArticleData.consider` never checks that the decoded text covers the
whole range: from a fresh state, an annotation whose text is shorter than its
range succeeds, records characters exactly where `anno_map` has them (nothing
at or beyond `start_pos + len(text)`), and a later text reconstruction over
the full range fails with a lookup error. -/
theorem short_text_lookup_gap (a : Anno)
    (h : a.target_text.length < (a.end_pos - a.start_pos).toNat) :
    (emptyArticleData.consider a).2 = none ∧
    (emptyArticleData.consider a).1.char_dict = annoMap a ∧
    (∀ p : Int, a.start_pos + (a.target_text.length : Int) ≤ p →
      (emptyArticleData.consider a).1.char_dict p = none) ∧
    setTextOne (emptyArticleData.consider a).1
      { start_pos := a.start_pos, end_pos := a.end_pos } = none := by
  have hlen : annoLen a = a.target_text.length := by
    unfold annoLen
    omega
  rw [ArticleData.consider_fresh (charConflict_empty a) rfl]
  have hdict : mergedCharDict emptyArticleData a = annoMap a := by
    funext p
    unfold mergedCharDict
    cases hm : annoMap a p with
    | some c => rfl
    | none => simp [emptyArticleData]
  have hnone : ∀ p : Int, a.start_pos + (a.target_text.length : Int) ≤ p →
      annoMap a p = none := by
    intro p hp
    apply annoMap_eq_none_of_ge
    rw [hlen]
    exact hp
  refine ⟨rfl, hdict, fun p hp => by rw [hdict]; exact hnone p hp, ?_⟩
  unfold setTextOne
  apply getChars_eq_none
  refine ⟨a.start_pos + (a.target_text.length : Int), ?_, ?_⟩
  · rw [mem_offsetList]
    refine ⟨?_, ?_⟩
    · show a.start_pos ≤ a.start_pos + (a.target_text.length : Int)
      omega
    · show a.start_pos + (a.target_text.length : Int) < a.end_pos
      omega
  · rw [hdict]
    exact hnone _ le_rfl

theorem short_text_lookup_gap_witness :
    annoShort.target_text.length < (annoShort.end_pos - annoShort.start_pos).toNat ∧
    ((emptyArticleData.consider annoShort).2 = none ∧
     (emptyArticleData.consider annoShort).1.char_dict = annoMap annoShort ∧
     (∀ p : Int, annoShort.start_pos + (annoShort.target_text.length : Int) ≤ p →
       (emptyArticleData.consider annoShort).1.char_dict p = none) ∧
     setTextOne (emptyArticleData.consider annoShort).1
       { start_pos := annoShort.start_pos, end_pos := annoShort.end_pos } = none) :=
  ⟨by decide, short_text_lookup_gap annoShort (by decide)⟩

lemma chain_lt_all {prev : Int} {l : List Int} (h : List.Chain (· < ·) prev l) :
    ∀ x ∈ l, prev < x := by
  rw [List.chain_iff_pairwise] at h
  exact (List.pairwise_cons.1 h).1

lemma rangesGo_bounds (l : List Int) : ∀ start prev : Int, start ≤ prev →
    List.Chain (· < ·) prev l →
    ∀ o ∈ rangesGo start prev l, start ≤ o.start_pos ∧ o.start_pos < o.end_pos := by
  induction l with
  | nil =>
    intro s pr hsp _ o ho
    simp only [rangesGo, List.mem_singleton] at ho
    subst ho
    refine ⟨le_refl s, ?_⟩
    show s < pr + 1
    omega
  | cons pos rest ih =>
    intro s pr hsp hch o ho
    rw [List.chain_cons] at hch
    obtain ⟨hpp, hch'⟩ := hch
    by_cases h : pr + 1 = pos
    · simp only [rangesGo] at ho
      rw [if_neg (not_not_intro h)] at ho
      exact ih s pos (by omega) hch' o ho
    · simp only [rangesGo] at ho
      rw [if_pos h] at ho
      rcases List.mem_cons.1 ho with rfl | ho'
      · refine ⟨le_refl s, ?_⟩
        show s < pr + 1
        omega
      · obtain ⟨h1, h2⟩ := ih pos pos (le_refl _) hch' o ho'
        exact ⟨by omega, h2⟩

lemma rangesGo_cover (l : List Int) : ∀ start prev : Int, start ≤ prev →
    List.Chain (· < ·) prev l → ∀ p : Int,
    (∃ o ∈ rangesGo start prev l, o.start_pos ≤ p ∧ p < o.end_pos) ↔
      ((start ≤ p ∧ p ≤ prev) ∨ p ∈ l) := by
  induction l with
  | nil =>
    intro s pr hsp _ p
    simp only [rangesGo, List.mem_singleton, List.not_mem_nil, or_false]
    constructor
    · rintro ⟨o, rfl, h1, h2⟩
      have h1' : s ≤ p := h1
      have h2' : p < pr + 1 := h2
      exact ⟨h1', by omega⟩
    · rintro ⟨h1, h2⟩
      exact ⟨⟨s, pr + 1⟩, rfl, h1, show p < pr + 1 by omega⟩
  | cons pos rest ih =>
    intro s pr hsp hch p
    rw [List.chain_cons] at hch
    obtain ⟨hpp, hch'⟩ := hch
    by_cases h : pr + 1 = pos
    · simp only [rangesGo]
      rw [if_neg (not_not_intro h)]
      rw [ih s pos (by omega) hch' p, List.mem_cons]
      constructor
      · rintro (⟨h1, h2⟩ | hr)
        · by_cases hpe : p ≤ pr
          · exact Or.inl ⟨h1, hpe⟩
          · exact Or.inr (Or.inl (by omega))
        · exact Or.inr (Or.inr hr)
      · rintro (⟨h1, h2⟩ | rfl | hr)
        · exact Or.inl ⟨h1, by omega⟩
        · exact Or.inl ⟨by omega, by omega⟩
        · exact Or.inr hr
    · simp only [rangesGo]
      rw [if_pos h, List.mem_cons]
      constructor
      · rintro ⟨o, ho, h1, h2⟩
        rcases List.mem_cons.1 ho with rfl | ho'
        · have h1' : s ≤ p := h1
          have h2' : p < pr + 1 := h2
          exact Or.inl ⟨h1', by omega⟩
        · rcases (ih pos pos (le_refl _) hch' p).1 ⟨o, ho', h1, h2⟩ with ⟨ha, hb⟩ | hr
          · exact Or.inr (Or.inl (by omega))
          · exact Or.inr (Or.inr hr)
      · rintro (⟨h1, h2⟩ | rfl | hr)
        · exact ⟨⟨s, pr + 1⟩, List.mem_cons_self _ _, h1, show p < pr + 1 by omega⟩
        · obtain ⟨o, ho, hc⟩ := (ih p p (le_refl _) hch' p).2 (Or.inl ⟨le_refl _, le_refl _⟩)
          exact ⟨o, List.mem_cons_of_mem _ ho, hc⟩
        · obtain ⟨o, ho, hc⟩ := (ih pos pos (le_refl _) hch' p).2 (Or.inr hr)
          exact ⟨o, List.mem_cons_of_mem _ ho, hc⟩

lemma rangesGo_pairwise (l : List Int) : ∀ start prev : Int, start ≤ prev →
    List.Chain (· < ·) prev l →
    (rangesGo start prev l).Pairwise (fun o o' => o.end_pos < o'.start_pos) := by
  induction l with
  | nil =>
    intro s pr _ _
    simp [rangesGo]
  | cons pos rest ih =>
    intro s pr hsp hch
    rw [List.chain_cons] at hch
    obtain ⟨hpp, hch'⟩ := hch
    by_cases h : pr + 1 = pos
    · simp only [rangesGo]
      rw [if_neg (not_not_intro h)]
      exact ih s pos (by omega) hch'
    · simp only [rangesGo]
      rw [if_pos h, List.pairwise_cons]
      refine ⟨?_, ih pos pos (le_refl _) hch'⟩
      intro o' ho'
      obtain ⟨hb1, hb2⟩ := rangesGo_bounds rest pos pos (le_refl _) hch' o' ho'
      show pr + 1 < o'.start_pos
      omega

lemma rangesGo_boundary (l : List Int) : ∀ start prev : Int, start ≤ prev →
    List.Chain (· < ·) prev l →
    ∀ o ∈ rangesGo start prev l,
      ¬((start ≤ o.start_pos - 1 ∧ o.start_pos - 1 ≤ prev) ∨ o.start_pos - 1 ∈ l) ∧
      ¬((start ≤ o.end_pos ∧ o.end_pos ≤ prev) ∨ o.end_pos ∈ l) := by
  induction l with
  | nil =>
    intro s pr hsp _ o ho
    simp only [rangesGo, List.mem_singleton] at ho
    subst ho
    constructor
    · rintro (⟨h1, h2⟩ | h3)
      · have h1' : s ≤ s - 1 := h1
        omega
      · simp at h3
    · rintro (⟨h1, h2⟩ | h3)
      · have h2' : pr + 1 ≤ pr := h2
        omega
      · simp at h3
  | cons pos rest ih =>
    intro s pr hsp hch o ho
    rw [List.chain_cons] at hch
    obtain ⟨hpp, hch'⟩ := hch
    have hall : ∀ x ∈ rest, pos < x := chain_lt_all hch'
    by_cases h : pr + 1 = pos
    · simp only [rangesGo] at ho
      rw [if_neg (not_not_intro h)] at ho
      obtain ⟨ihs, ihe⟩ := ih s pos (by omega) hch' o ho
      constructor
      · rintro (⟨h1, h2⟩ | h3)
        · exact ihs (Or.inl ⟨h1, by omega⟩)
        · rcases List.mem_cons.1 h3 with heq | hmem
          · exact ihs (Or.inl ⟨by omega, by omega⟩)
          · exact ihs (Or.inr hmem)
      · rintro (⟨h1, h2⟩ | h3)
        · exact ihe (Or.inl ⟨h1, by omega⟩)
        · rcases List.mem_cons.1 h3 with heq | hmem
          · exact ihe (Or.inl ⟨by omega, by omega⟩)
          · exact ihe (Or.inr hmem)
    · simp only [rangesGo] at ho
      rw [if_pos h] at ho
      rcases List.mem_cons.1 ho with rfl | ho'
      · constructor
        · rintro (⟨h1, h2⟩ | h3)
          · have h1' : s ≤ s - 1 := h1
            omega
          · rcases List.mem_cons.1 h3 with heq | hmem
            · have heq' : s - 1 = pos := heq
              omega
            · have hx := hall _ hmem
              have hx' : pos < s - 1 := hx
              omega
        · rintro (⟨h1, h2⟩ | h3)
          · have h2' : pr + 1 ≤ pr := h2
            omega
          · rcases List.mem_cons.1 h3 with heq | hmem
            · have heq' : pr + 1 = pos := heq
              exact h heq'
            · have hx := hall _ hmem
              have hx' : pos < pr + 1 := hx
              omega
      · obtain ⟨ihs, ihe⟩ := ih pos pos (le_refl _) hch' o ho'
        obtain ⟨hb1, hb2⟩ := rangesGo_bounds rest pos pos (le_refl _) hch' o ho'
        constructor
        · rintro (⟨h1, h2⟩ | h3)
          · omega
          · rcases List.mem_cons.1 h3 with heq | hmem
            · exact ihs (Or.inl ⟨by omega, by omega⟩)
            · exact ihs (Or.inr hmem)
        · rintro (⟨h1, h2⟩ | h3)
          · omega
          · rcases List.mem_cons.1 h3 with heq | hmem
            · exact ihe (Or.inl ⟨by omega, by omega⟩)
            · exact ihe (Or.inr hmem)

lemma convert_to_ranges_perm_inv {l l' : List Int} (h : l.Perm l') :
    convert_to_ranges l = convert_to_ranges l' := by
  unfold convert_to_ranges
  have heq : List.insertionSort (· ≤ ·) l = List.insertionSort (· ≤ ·) l' :=
    List.eq_of_perm_of_sorted
      ((List.perm_insertionSort _ l).trans (h.trans (List.perm_insertionSort _ l').symm))
      (List.sorted_insertionSort _ l) (List.sorted_insertionSort _ l')
  rw [heq]

lemma convert_to_ranges_props (l : List Int) (hnd : l.Nodup) :
    (∀ p : Int, (∃ o ∈ convert_to_ranges l, o.start_pos ≤ p ∧ p < o.end_pos) ↔ p ∈ l) ∧
    (∀ o ∈ convert_to_ranges l, o.start_pos < o.end_pos) ∧
    (convert_to_ranges l).Pairwise (fun o o' => o.end_pos < o'.start_pos) ∧
    (∀ o ∈ convert_to_ranges l, o.start_pos - 1 ∉ l ∧ o.end_pos ∉ l) := by
  unfold convert_to_ranges
  have hperm := List.perm_insertionSort (· ≤ ·) l
  have hsorted := List.sorted_insertionSort (· ≤ ·) l
  have hnd' : (List.insertionSort (· ≤ ·) l).Nodup := hperm.nodup_iff.2 hnd
  cases hs : List.insertionSort (· ≤ ·) l with
  | nil =>
    rw [hs] at hperm
    have hl : l = [] := hperm.symm.eq_nil
    subst hl
    simp
  | cons x xs =>
    rw [hs] at hperm hsorted hnd'
    have hmem : ∀ p : Int, p ∈ l ↔ (p = x ∨ p ∈ xs) := by
      intro p
      rw [← hperm.mem_iff, List.mem_cons]
    have hchain : List.Chain (· < ·) x xs := by
      have hlt : List.Sorted (· < ·) (x :: xs) := hsorted.lt_of_le hnd'
      rw [List.chain_iff_pairwise]
      exact hlt
    refine ⟨?_, ?_, ?_, ?_⟩
    · intro p
      rw [rangesGo_cover xs x x (le_refl _) hchain p, hmem p]
      constructor
      · rintro (⟨h1, h2⟩ | hr)
        · exact Or.inl (le_antisymm h2 h1)
        · exact Or.inr hr
      · rintro (rfl | hr)
        · exact Or.inl ⟨le_refl _, le_refl _⟩
        · exact Or.inr hr
    · intro o ho
      exact (rangesGo_bounds xs x x (le_refl _) hchain o ho).2
    · exact rangesGo_pairwise xs x x (le_refl _) hchain
    · intro o ho
      obtain ⟨h1, h2⟩ := rangesGo_boundary xs x x (le_refl _) hchain o ho
      constructor
      · intro hin
        rcases (hmem _).1 hin with heq | hin'
        · exact h1 (Or.inl ⟨by omega, by omega⟩)
        · exact h1 (Or.inr hin')
      · intro hin
        rcases (hmem _).1 hin with heq | hin'
        · exact h2 (Or.inl ⟨by omega, by omega⟩)
        · exact h2 (Or.inr hin')

lemma pairwise_sep_unique {p : Int} :
    ∀ R : List Offset, R.Pairwise (fun o o' => o.end_pos < o'.start_pos) →
    ∀ o1 o2 : Offset, o1 ∈ R → o2 ∈ R →
    o1.start_pos ≤ p → p < o1.end_pos → o2.start_pos ≤ p → p < o2.end_pos →
    o1 = o2 := by
  intro R
  induction R with
  | nil =>
    intro _ o1 o2 h1
    simp at h1
  | cons o rest ih =>
    intro hpw o1 o2 h1 h2 c1a c1b c2a c2b
    rw [List.pairwise_cons] at hpw
    obtain ⟨hhead, htail⟩ := hpw
    rcases List.mem_cons.1 h1 with rfl | h1'
    · rcases List.mem_cons.1 h2 with rfl | h2'
      · rfl
      · have hx := hhead o2 h2'
        omega
    · rcases List.mem_cons.1 h2 with rfl | h2'
      · have hx := hhead o1 h1'
        omega
      · exact ih htail o1 o2 h1' h2' c1a c1b c2a c2b

/-- C2: `convert_to_ranges` on a duplicate-free list of positions returns
exactly the maximal contiguous runs of the position set as nonempty half-open
ranges: range members are members of the input, every input position lies in
exactly one range, range boundaries sit at gaps of the set (the position just
before a range's start and the range's end are not in the set), the result is
independent of the input's iteration order, and the empty input yields the
empty list. -/
theorem convert_to_ranges_spec (l : List Int) (hnd : l.Nodup) :
    (∀ o ∈ convert_to_ranges l, o.start_pos < o.end_pos ∧
      ∀ p : Int, o.start_pos ≤ p → p < o.end_pos → p ∈ l) ∧
    (∀ p ∈ l, ∃! o : Offset, (o ∈ convert_to_ranges l ∧ o.start_pos ≤ p ∧ p < o.end_pos)) ∧
    (∀ o ∈ convert_to_ranges l, o.start_pos - 1 ∉ l ∧ o.end_pos ∉ l) ∧
    (∀ l' : List Int, l.Perm l' → convert_to_ranges l = convert_to_ranges l') ∧
    convert_to_ranges ([] : List Int) = [] := by
  obtain ⟨hcov, hbnd, hpw, hbd⟩ := convert_to_ranges_props l hnd
  refine ⟨?_, ?_, hbd, fun l' h => convert_to_ranges_perm_inv h, rfl⟩
  · intro o ho
    exact ⟨hbnd o ho, fun p h1 h2 => (hcov p).1 ⟨o, ho, h1, h2⟩⟩
  · intro p hp
    obtain ⟨o, ho, hc1, hc2⟩ := (hcov p).2 hp
    refine ⟨o, ⟨ho, hc1, hc2⟩, ?_⟩
    rintro o' ⟨ho', hc1', hc2'⟩
    exact pairwise_sep_unique _ hpw o' o ho' ho hc1' hc2' hc1 hc2

theorem convert_to_ranges_spec_witness :
    ([3, 1, 2, 7] : List Int).Nodup ∧
    ([1, 2, 3, 7] : List Int).Perm [3, 1, 2, 7] ∧
    (∀ l' : List Int, ([3, 1, 2, 7] : List Int).Perm l' →
      convert_to_ranges [3, 1, 2, 7] = convert_to_ranges l') :=
  ⟨by decide, by decide, (convert_to_ranges_spec [3, 1, 2, 7] (by decide)).2.2.2.1⟩

lemma offsetList_nodup (o : Offset) : (offsetList o).Nodup := by
  unfold offsetList
  exact List.Nodup.map (fun i j h => by omega) (List.nodup_range _)

lemma flat_sep_nodup : ∀ R : List Offset,
    R.Pairwise (fun o o' => o.end_pos < o'.start_pos) →
    (R.flatMap offsetList).Nodup := by
  intro R
  induction R with
  | nil =>
    intro _
    simp
  | cons o rest ih =>
    intro hpw
    rw [List.pairwise_cons] at hpw
    obtain ⟨hhead, htail⟩ := hpw
    rw [List.flatMap_cons, List.nodup_append]
    refine ⟨offsetList_nodup o, ih htail, ?_⟩
    intro x hx hx'
    rw [mem_offsetList] at hx
    rw [List.mem_flatMap] at hx'
    obtain ⟨o', ho', hxo'⟩ := hx'
    rw [mem_offsetList] at hxo'
    have hsep := hhead o' ho'
    omega

lemma casesFrom_case_numbers (tn ns : Option Nat) : ∀ (k : Nat) (trs : List TRow),
    (casesFrom tn ns k trs).map (fun r => r.case_number) = List.range' (k + 1) trs.length := by
  intro k trs
  induction trs generalizing k with
  | nil => rfl
  | cons tr rest ih =>
    show (k + 1) :: (casesFrom tn ns (k + 1) rest).map (fun r => r.case_number) =
      (k + 1) :: List.range' (k + 2) rest.length
    rw [ih (k + 1)]

lemma casesFrom_fields (tn ns : Option Nat) : ∀ (k : Nat) (trs : List TRow),
    (casesFrom tn ns k trs).map (fun r => (r.start_pos, r.end_pos, r.target_text)) =
      trs.map (fun tr => (tr.start_pos, tr.end_pos, tr.target_text)) := by
  intro k trs
  induction trs generalizing k with
  | nil => rfl
  | cons tr rest ih =>
    show (tr.start_pos, tr.end_pos, tr.target_text) ::
        (casesFrom tn ns (k + 1) rest).map (fun r => (r.start_pos, r.end_pos, r.target_text)) =
      (tr.start_pos, tr.end_pos, tr.target_text) ::
        rest.map (fun tr => (tr.start_pos, tr.end_pos, tr.target_text))
    rw [ih (k + 1)]

lemma get_consensus_threshold_eq (td : TopicData) (th : Nat) :
    (td.get_consensus fun _ total => decide (th ≤ total)) =
      convert_to_ranges (Finset.sort (· ≤ ·) (td.passingPositions th)) := by
  unfold TopicData.get_consensus TopicData.passingPositions
  congr 2
  ext p
  simp

/-- C3: per-topic output ranges are pairwise separated by a gap (hence
disjoint), sorted strictly ascending by `start_pos`, nonempty, bounded by
non-passing positions on both sides (no adjacency), re-converting the union
of their positions reproduces them (idempotence), and `determine_cases`
numbers rows 1..N in list order, preserving the offsets and ignoring
everything but the topic identity (in particular any contributor-proposed
case number). -/
theorem topic_output_invariants (td : TopicData) (th : Nat) :
    (td.get_consensus fun _ total => decide (th ≤ total)).Pairwise
      (fun o o' => o.end_pos < o'.start_pos) ∧
    (td.get_consensus fun _ total => decide (th ≤ total)).Pairwise
      (fun o o' => o.start_pos < o'.start_pos) ∧
    (∀ o ∈ td.get_consensus fun _ total => decide (th ≤ total),
      o.start_pos < o.end_pos) ∧
    (∀ o ∈ td.get_consensus fun _ total => decide (th ≤ total),
      o.end_pos ∉ td.passingPositions th ∧ o.start_pos - 1 ∉ td.passingPositions th) ∧
    convert_to_ranges
        ((td.get_consensus fun _ total => decide (th ≤ total)).flatMap offsetList) =
      (td.get_consensus fun _ total => decide (th ≤ total)) ∧
    (∀ (tn ns : Option Nat) (trs : List TRow),
      (TopicData.determine_cases { td with topic_name := tn, nspace := ns } trs).map
        (fun r => r.case_number) = List.range' 1 trs.length) ∧
    (∀ trs : List TRow,
      (td.determine_cases trs).map (fun r => (r.start_pos, r.end_pos, r.target_text)) =
        trs.map (fun tr => (tr.start_pos, tr.end_pos, tr.target_text))) := by
  have hndL : (Finset.sort (· ≤ ·) (td.passingPositions th)).Nodup :=
    Finset.sort_nodup _ _
  obtain ⟨hcov, hbnd, hpw, hbd⟩ :=
    convert_to_ranges_props (Finset.sort (· ≤ ·) (td.passingPositions th)) hndL
  have hmemL : ∀ p : Int,
      p ∈ Finset.sort (· ≤ ·) (td.passingPositions th) ↔ p ∈ td.passingPositions th :=
    fun p => Finset.mem_sort _
  rw [get_consensus_threshold_eq]
  refine ⟨hpw, ?_, hbnd, ?_, ?_, ?_, ?_⟩
  · refine hpw.imp_of_mem ?_
    intro o o' ho ho' hr
    have hb := hbnd o ho
    omega
  · intro o ho
    obtain ⟨h1, h2⟩ := hbd o ho
    exact ⟨fun hin => h2 ((hmemL _).2 hin), fun hin => h1 ((hmemL _).2 hin)⟩
  · apply convert_to_ranges_perm_inv
    apply List.perm_of_nodup_nodup_toFinset_eq (flat_sep_nodup _ hpw) hndL
    ext p
    simp only [List.mem_toFinset, List.mem_flatMap]
    constructor
    · rintro ⟨o, ho, hpo⟩
      rw [mem_offsetList] at hpo
      exact (hcov p).1 ⟨o, ho, hpo⟩
    · intro hp
      obtain ⟨o, ho, h1, h2⟩ := (hcov p).2 hp
      exact ⟨o, ho, mem_offsetList.2 ⟨h1, h2⟩⟩
  · intro tn ns trs
    exact casesFrom_case_numbers tn ns 0 trs
  · intro trs
    exact casesFrom_fields td.topic_name td.nspace 0 trs

theorem topic_output_invariants_witness :
    sampleTopic.passingPositions 2 = {2, 3} ∧
    (∀ o ∈ sampleTopic.get_consensus fun _ total => decide (2 ≤ total),
      o.start_pos < o.end_pos) :=
  ⟨by decide, (topic_output_invariants sampleTopic 2).2.2.1⟩

lemma stepOne_skip {S : ProcState} {a : Anno}
    (h : a.taskrun_count < S.iaa_config.minRedundancy) : stepOne S a = (S, none) := by
  unfold stepOne
  rw [if_pos h]

lemma stepOne_config (S : ProcState) (a : Anno) :
    (stepOne S a).1.iaa_config = S.iaa_config := by
  unfold stepOne
  split
  · rfl
  · split
    · rfl
    · split
      · rfl

lemma considerBatch_filter_redundancy (m : Nat) :
    ∀ (L : List Anno) (S : ProcState), S.iaa_config.minRedundancy = m →
    considerBatch S (L.filter fun a => decide (m ≤ a.taskrun_count)) = considerBatch S L := by
  intro L
  induction L with
  | nil =>
    intro S _
    rfl
  | cons a rest ih =>
    intro S hm
    by_cases hskip : a.taskrun_count < m
    · rw [List.filter_cons_of_neg (by simpa using hskip)]
      show considerBatch S (rest.filter fun a => decide (m ≤ a.taskrun_count)) =
        considerBatch S (a :: rest)
      rw [ih S hm]
      show considerBatch S rest = considerBatch S (a :: rest)
      have hstep : stepOne S a = (S, none) := stepOne_skip (by omega)
      show considerBatch S rest =
        match stepOne S a with
        | (S', none) => considerBatch S' rest
        | (S', some e) => (S', some e)
      rw [hstep]
    · rw [List.filter_cons_of_pos (by simpa using Nat.le_of_not_lt hskip)]
      show (match stepOne S a with
        | (S', none) => considerBatch S' (rest.filter fun a => decide (m ≤ a.taskrun_count))
        | (S', some e) => (S', some e)) =
        match stepOne S a with
        | (S', none) => considerBatch S' rest
        | (S', some e) => (S', some e)
      cases hs : stepOne S a with
      | mk S' e =>
        cases e with
        | none =>
          have hcfg : S'.iaa_config = S.iaa_config := by
            have := stepOne_config S a
            rw [hs] at this
            exact this
          exact ih S' (by rw [hcfg, hm])
        | some err => rfl

/-- C6: an annotation with `taskrun_count < minimum_redundancy` is skipped by
`ConsensusProcessor.consider` with no effect on any state, so removing all
such annotations from a batch leaves the resulting state, and hence the
output of `get_consensus`, unchanged. -/
theorem redundancy_filter_identity (S : ProcState) (L : List Anno) :
    (∀ a : Anno, a.taskrun_count < S.iaa_config.minRedundancy →
      stepOne S a = (S, none)) ∧
    considerBatch S
        (L.filter fun a => decide (S.iaa_config.minRedundancy ≤ a.taskrun_count)) =
      considerBatch S L ∧
    getConsensus
        (considerBatch S
          (L.filter fun a => decide (S.iaa_config.minRedundancy ≤ a.taskrun_count))).1 =
      getConsensus (considerBatch S L).1 := by
  have hbatch := considerBatch_filter_redundancy S.iaa_config.minRedundancy L S rfl
  exact ⟨fun a h => stepOne_skip h, hbatch, by rw [hbatch]⟩

theorem redundancy_filter_identity_witness :
    annoLow.taskrun_count < (initState 0 defaultConfig).iaa_config.minRedundancy ∧
    stepOne (initState 0 defaultConfig) annoLow = (initState 0 defaultConfig, none) :=
  ⟨by decide,
   (redundancy_filter_identity (initState 0 defaultConfig) []).1 annoLow (by decide)⟩

/-- C7: `get_answer_consensus` behaves per topic exactly as `get_consensus`
except that a topic with zero passing ranges whose distinct-contributor count
meets `pass_threshold` yields the single degenerate row with
`start_pos = 0`, `end_pos = 0` (empty text, case number 1), and every emitted
row carries `extra.contrib_count` equal to the topic's distinct contributor
count; the two top-level functions fold these per-topic rows identically. -/
theorem answer_consensus_vs_plain (S : ProcState) (t : Nat) :
    topicAnswerRows S t =
      (if (S.topics t).get_consensus
            (fun _ total => decide (S.iaa_config.passThreshold ≤ total)) = [] ∧
          S.iaa_config.passThreshold ≤ (S.topics t).get_contrib_count then
        some [{ start_pos := 0, end_pos := 0, target_text := [],
                topic_name := (S.topics t).topic_name, nspace := (S.topics t).nspace,
                case_number := 1,
                article_sha256 := S.article_data.article_sha256,
                article_filename := S.article_data.article_filename,
                task_uuid := S.task_uuid,
                extra := some (S.topics t).get_contrib_count }]
      else
        (topicPlainRows S t).map
          (List.map fun r => { r with extra := some (S.topics t).get_contrib_count })) ∧
    getConsensus S = collectRows (topicPlainRows S) (sortedTopicKeys S) ∧
    getAnswerConsensus S = collectRows (topicAnswerRows S) (sortedTopicKeys S) := by
  refine ⟨?_, rfl, rfl⟩
  simp only [topicAnswerRows, topicPlainRows]
  by_cases hc : ((S.topics t).get_consensus
      (fun _ total => decide (S.iaa_config.passThreshold ≤ total)) = [] ∧
      S.iaa_config.passThreshold ≤ (S.topics t).get_contrib_count)
  · rw [if_pos hc, if_pos hc]
    rfl
  · rw [if_neg hc, if_neg hc]
    cases hst : setText S.article_data ((S.topics t).get_consensus
        fun _ total => decide (S.iaa_config.passThreshold ≤ total)) with
    | none => rfl
    | some trs =>
      show some (((S.topics t).determine_cases trs).map
          (linkRow S (some (S.topics t).get_contrib_count))) =
        Option.map (List.map fun r =>
            { r with extra := some (S.topics t).get_contrib_count })
          (some (((S.topics t).determine_cases trs).map (linkRow S none)))
      rw [Option.map_some', List.map_map]
      rfl

lemma articledata_compat_consider_eq {ad : ArticleData} {a : Anno} (h : ArticleCompat ad a) :
    ad.consider a = (stepArticle ad a, none) := by
  have hc : charConflict ad a = false := charConflict_of_compat h.1
  rcases h.2 with hs | ⟨hs, hf⟩
  · rw [ArticleData.consider_fresh hc hs]
    rfl
  · rw [ArticleData.consider_keep hc hs rfl hf]
    rw [Prod.mk.injEq]
    refine ⟨?_, rfl⟩
    ext p
    · rw [hs]
      rfl
    · rw [hf]
      rfl
    · rfl

lemma topicdata_compat_consider_eq {td : TopicData} {a : Anno} (h : TopicCompat td a) :
    td.consider a = (stepTopic td a, none) := by
  rcases h with hs | ⟨hs, hn⟩
  · simp [TopicData.consider, hs, stepTopic]
  · simp [TopicData.consider, hs, hn, stepTopic]

lemma ContribData.consider_comm (cd : ContribData) (a b : Anno) :
    (cd.consider a).consider b = (cd.consider b).consider a := by
  ext : 1
  · show cd.flattened ∪ annoSet a ∪ annoSet b = cd.flattened ∪ annoSet b ∪ annoSet a
    rw [Finset.union_right_comm]
  · funext p
    show (if p ∈ annoSet b then
        match (cd.consider a).case_number_dict p with
        | none => some b.case_number
        | some old => some (min old b.case_number)
      else (cd.consider a).case_number_dict p) =
      (if p ∈ annoSet a then
        match (cd.consider b).case_number_dict p with
        | none => some a.case_number
        | some old => some (min old a.case_number)
      else (cd.consider b).case_number_dict p)
    show (if p ∈ annoSet b then
        match (if p ∈ annoSet a then
            match cd.case_number_dict p with
            | none => some a.case_number
            | some old => some (min old a.case_number)
          else cd.case_number_dict p) with
        | none => some b.case_number
        | some old => some (min old b.case_number)
      else if p ∈ annoSet a then
        match cd.case_number_dict p with
        | none => some a.case_number
        | some old => some (min old a.case_number)
      else cd.case_number_dict p) =
      (if p ∈ annoSet a then
        match (if p ∈ annoSet b then
            match cd.case_number_dict p with
            | none => some b.case_number
            | some old => some (min old b.case_number)
          else cd.case_number_dict p) with
        | none => some a.case_number
        | some old => some (min old a.case_number)
      else if p ∈ annoSet b then
        match cd.case_number_dict p with
        | none => some b.case_number
        | some old => some (min old b.case_number)
      else cd.case_number_dict p)
    by_cases ha : p ∈ annoSet a <;> by_cases hb : p ∈ annoSet b
    · cases hcd : cd.case_number_dict p with
      | none => simp [ha, hb, hcd, min_comm]
      | some old => simp [ha, hb, hcd, min_right_comm]
    · simp [ha, hb]
    · simp [ha, hb]
    · simp [ha, hb]

lemma merged_fun_comm (f : Int → Option Char) (a b : Anno)
    (hab : ∀ p c c', annoMap a p = some c → annoMap b p = some c' → c = c') :
    (fun p =>
      match annoMap b p with
      | some c => some c
      | none =>
        match annoMap a p with
        | some c => some c
        | none => f p) =
    (fun p =>
      match annoMap a p with
      | some c => some c
      | none =>
        match annoMap b p with
        | some c => some c
        | none => f p) := by
  funext p
  cases hma : annoMap a p with
  | none => simp
  | some c =>
    cases hmb : annoMap b p with
    | none => simp
    | some c' =>
      have hcc := hab p c c' hma hmb
      subst hcc
      rfl

lemma stepArticle_swap (ad : ArticleData) (a b : Anno)
    (hsha : a.article_sha256 = b.article_sha256)
    (hfn : a.article_filename = b.article_filename)
    (hchars : ∀ p c c', annoMap a p = some c → annoMap b p = some c' → c = c') :
    stepArticle (stepArticle ad a) b = stepArticle (stepArticle ad b) a := by
  ext : 1
  · show some b.article_sha256 = some a.article_sha256
    rw [hsha]
  · show some b.article_filename = some a.article_filename
    rw [hfn]
  · show mergedCharDict (stepArticle ad a) b = mergedCharDict (stepArticle ad b) a
    exact merged_fun_comm ad.char_dict a b hchars

lemma stepTopic_swap (td : TopicData) (a b : Anno)
    (htt : a.topic_name = b.topic_name) (hns : a.nspace = b.nspace) :
    stepTopic (stepTopic td a) b = stepTopic (stepTopic td b) a := by
  ext : 1
  · show some b.topic_name = some a.topic_name
    rw [htt]
  · show some b.nspace = some a.nspace
    rw [hns]
  · show insert b.contributor_uuid (insert a.contributor_uuid td.contrib_keys) =
      insert a.contributor_uuid (insert b.contributor_uuid td.contrib_keys)
    exact Finset.Insert.comm _ _ _
  · show Function.update (Function.update td.contribs a.contributor_uuid
        ((td.contribs a.contributor_uuid).consider a)) b.contributor_uuid
        (((Function.update td.contribs a.contributor_uuid
          ((td.contribs a.contributor_uuid).consider a)) b.contributor_uuid).consider b) =
      Function.update (Function.update td.contribs b.contributor_uuid
        ((td.contribs b.contributor_uuid).consider b)) a.contributor_uuid
        (((Function.update td.contribs b.contributor_uuid
          ((td.contribs b.contributor_uuid).consider b)) a.contributor_uuid).consider a)
    by_cases huu : a.contributor_uuid = b.contributor_uuid
    · rw [← huu, Function.update_same, Function.update_same,
        Function.update_idem, Function.update_idem, ContribData.consider_comm]
    · rw [Function.update_noteq (Ne.symm huu), Function.update_noteq huu]
      exact Function.update_comm huu _ _ _

lemma steppedState_swap (S : ProcState) (a b : Anno) (hab : annoConsistent a b) :
    steppedState (steppedState S a) b = steppedState (steppedState S b) a := by
  obtain ⟨hsha, hfn, hns, hcc⟩ := hab
  have hchars := charCompat_spec hcc
  ext : 1
  · rfl
  · rfl
  · show stepArticle (stepArticle S.article_data a) b =
      stepArticle (stepArticle S.article_data b) a
    exact stepArticle_swap S.article_data a b hsha hfn hchars
  · show insert b.topic_name (insert a.topic_name S.topic_keys) =
      insert a.topic_name (insert b.topic_name S.topic_keys)
    exact Finset.Insert.comm _ _ _
  · show Function.update (Function.update S.topics a.topic_name
        (stepTopic (S.topics a.topic_name) a)) b.topic_name
        (stepTopic ((Function.update S.topics a.topic_name
          (stepTopic (S.topics a.topic_name) a)) b.topic_name) b) =
      Function.update (Function.update S.topics b.topic_name
        (stepTopic (S.topics b.topic_name) b)) a.topic_name
        (stepTopic ((Function.update S.topics b.topic_name
          (stepTopic (S.topics b.topic_name) b)) a.topic_name) a)
    by_cases htt : a.topic_name = b.topic_name
    · rw [← htt, Function.update_same, Function.update_same,
        Function.update_idem, Function.update_idem,
        stepTopic_swap (S.topics a.topic_name) a b htt (hns htt)]
    · rw [Function.update_noteq (Ne.symm htt), Function.update_noteq htt]
      exact Function.update_comm htt _ _ _

lemma stepOne_ok {S : ProcState} {a : Anno} (h : StateCompat S a)
    (hk : ¬a.taskrun_count < S.iaa_config.minRedundancy) :
    stepOne S a = (steppedState S a, none) := by
  unfold stepOne
  rw [if_neg hk, articledata_compat_consider_eq h.1, topicdata_compat_consider_eq h.2]
  rfl

lemma steppedState_compat (S : ProcState) (a b : Anno)
    (hSb : StateCompat S b) (hab : annoConsistent a b) :
    StateCompat (steppedState S a) b := by
  obtain ⟨hsha, hfn, hns, hcc⟩ := hab
  obtain ⟨⟨hbchar, hbid⟩, hbtopic⟩ := hSb
  have hchars := charCompat_spec hcc
  constructor
  · constructor
    · intro p c c' hmerged hb
      have hm : (match annoMap a p with
          | some x => some x
          | none => S.article_data.char_dict p) = some c := hmerged
      cases hma : annoMap a p with
      | some ca =>
        rw [hma] at hm
        simp only [Option.some.injEq] at hm
        subst hm
        exact hchars p _ _ hma hb
      | none =>
        rw [hma] at hm
        exact hbchar p c c' hm hb
    · refine Or.inr ⟨?_, ?_⟩
      · show some a.article_sha256 = some b.article_sha256
        rw [hsha]
      · show some a.article_filename = some b.article_filename
        rw [hfn]
  · by_cases htt : a.topic_name = b.topic_name
    · refine Or.inr ⟨?_, ?_⟩
      · show ((Function.update S.topics a.topic_name
            (stepTopic (S.topics a.topic_name) a)) b.topic_name).topic_name =
          some b.topic_name
        rw [← htt, Function.update_same]
        rfl
      · show ((Function.update S.topics a.topic_name
            (stepTopic (S.topics a.topic_name) a)) b.topic_name).nspace =
          some b.nspace
        rw [← htt, Function.update_same]
        show some a.nspace = some b.nspace
        rw [hns htt]
      -- note: with htt the namespaces agree, so stamping a's namespace is
      -- stamping b's
    · have heq : (steppedState S a).topics b.topic_name = S.topics b.topic_name :=
        Function.update_noteq (Ne.symm htt) _ _
      exact heq.symm ▸ hbtopic

lemma stepOne_compat (S : ProcState) (a b : Anno) (hSa : StateCompat S a)
    (hSb : StateCompat S b) (hab : annoConsistent a b) :
    StateCompat (stepOne S a).1 b := by
  by_cases hk : a.taskrun_count < S.iaa_config.minRedundancy
  · rw [stepOne_skip hk]
    exact hSb
  · rw [stepOne_ok hSa hk]
    exact steppedState_compat S a b hSb hab

lemma BatchCompat_perm {L M : List Anno} (h : L.Perm M) {S : ProcState} :
    BatchCompat S L → BatchCompat S M := by
  rintro ⟨hc, hcm⟩
  exact ⟨fun a ha b hb => hc a (h.mem_iff.2 ha) b (h.mem_iff.2 hb),
         fun a ha => hcm a (h.mem_iff.2 ha)⟩

lemma considerBatch_perm_eq {L L' : List Anno} (hperm : L.Perm L') :
    ∀ S : ProcState, BatchCompat S L → considerBatch S L = considerBatch S L' := by
  induction hperm with
  | nil =>
    intro S _
    rfl
  | cons x hp ih =>
    intro S hBC
    obtain ⟨hcons, hcompat⟩ := hBC
    have hSx : StateCompat S x := hcompat x (List.mem_cons_self x _)
    have htcons : batchConsistent _ := fun a ha b hb =>
      hcons a (List.mem_cons_of_mem x ha) b (List.mem_cons_of_mem x hb)
    by_cases hk : x.taskrun_count < S.iaa_config.minRedundancy
    · simp only [considerBatch, stepOne_skip hk]
      exact ih S ⟨htcons, fun a ha => hcompat a (List.mem_cons_of_mem x ha)⟩
    · simp only [considerBatch, stepOne_ok hSx hk]
      exact ih (steppedState S x)
        ⟨htcons, fun a ha =>
          steppedState_compat S x a (hcompat a (List.mem_cons_of_mem x ha))
            (hcons x (List.mem_cons_self x _) a (List.mem_cons_of_mem x ha))⟩
  | swap x y l =>
    intro S hBC
    obtain ⟨hcons, hcompat⟩ := hBC
    have hSy : StateCompat S y := hcompat y (by simp)
    have hSx : StateCompat S x := hcompat x (by simp)
    have hxy : annoConsistent x y := hcons x (by simp) y (by simp)
    have hyx : annoConsistent y x := hcons y (by simp) x (by simp)
    by_cases hkx : x.taskrun_count < S.iaa_config.minRedundancy <;>
      by_cases hky : y.taskrun_count < S.iaa_config.minRedundancy
    · simp only [considerBatch, stepOne_skip hkx, stepOne_skip hky]
    · have hkx2 : x.taskrun_count < (steppedState S y).iaa_config.minRedundancy := hkx
      simp only [considerBatch, stepOne_ok hSy hky, stepOne_skip hkx,
        stepOne_skip hkx2]
    · have hky2 : y.taskrun_count < (steppedState S x).iaa_config.minRedundancy := hky
      simp only [considerBatch, stepOne_ok hSx hkx, stepOne_skip hky,
        stepOne_skip hky2]
    · have hSyx : StateCompat (steppedState S y) x := steppedState_compat S y x hSx hyx
      have hSxy : StateCompat (steppedState S x) y := steppedState_compat S x y hSy hxy
      have hkx2 : ¬x.taskrun_count < (steppedState S y).iaa_config.minRedundancy := hkx
      have hky2 : ¬y.taskrun_count < (steppedState S x).iaa_config.minRedundancy := hky
      simp only [considerBatch, stepOne_ok hSy hky, stepOne_ok hSx hkx,
        stepOne_ok hSyx hkx2, stepOne_ok hSxy hky2]
      rw [steppedState_swap S y x hyx]
  | trans h1 _ ih1 ih2 =>
    intro S hBC
    rw [ih1 S hBC]
    exact ih2 S (BatchCompat_perm h1 hBC)

lemma initState_compat (task : Nat) (cfg : Config) (a : Anno) :
    StateCompat (initState task cfg) a := by
  refine ⟨⟨?_, Or.inl rfl⟩, Or.inl rfl⟩
  intro p c c' h
  exact absurd h (by simp [initState, emptyArticleData])

/-- C4: feeding any permutation of a consistent annotation batch to
`ConsensusProcessor.consider` produces the identical processor state; in
particular the `char_dict` mapping and the rows returned by `get_consensus`
are identical to those produced from the original order. -/
theorem consensus_commutative (task : Nat) (cfg : Config) (L L' : List Anno)
    (hcons : batchConsistent L) (hperm : L.Perm L') :
    considerBatch (initState task cfg) L = considerBatch (initState task cfg) L' ∧
    (considerBatch (initState task cfg) L).1.article_data.char_dict =
      (considerBatch (initState task cfg) L').1.article_data.char_dict ∧
    getConsensus (considerBatch (initState task cfg) L).1 =
      getConsensus (considerBatch (initState task cfg) L').1 := by
  have h := considerBatch_perm_eq hperm (initState task cfg)
    ⟨hcons, fun a _ => initState_compat task cfg a⟩
  exact ⟨h, by rw [h], by rw [h]⟩

theorem consensus_commutative_witness :
    batchConsistent [annoA, annoB] ∧
    considerBatch (initState 0 defaultConfig) [annoA, annoB] =
      considerBatch (initState 0 defaultConfig) [annoB, annoA] :=
  ⟨by decide,
   (consensus_commutative 0 defaultConfig [annoA, annoB] [annoB, annoA]
     (by decide) (List.Perm.swap annoB annoA [])).1⟩
